import Mathlib

/-!
Shallow embedding of the highlight-rendering core of
`meilidb-core/examples/from_file.rs`: character-to-byte mapping
(`char_to_byte_range`), highlight-area construction
(`create_highlight_areas`), match-anchored cropping (`crop_text`) and the
span renderer (`display_highlights`).  Texts are lists of Unicode scalar
values (`List Char`); byte offsets are computed through `Char.utf8Size`.
-/

namespace MeiliHighlight

/-- Modelled from the spec: the `Highlight` record of `meilidb-core`
(declared outside this crate's sources).  One match: schema attribute id,
character start offset and character length relative to the full text.
The source stores all three as `u16`; here they are naturals, and the
`u16` width enters only through `wrapSub16` at the one place the source
does `u16` arithmetic.  The source field `attribute` is a Lean keyword and
is rendered `attr`. -/
structure Highlight where
  attr : Nat
  char_index : Nat
  char_length : Nat
deriving DecidableEq, Repr

/-- The loop of `char_to_byte_range`, one step per character of the
remaining text `cs`.  `n` is the enumeration counter, `i` the byte offset
of the current character, `byteIdx` the `byte_index` accumulator (initially
`0`).  Returning from inside the match models `break`; falling off the end
of the text leaves `byte_length = 0`. -/
def charToByteAux (index length : Nat) : List Char → Nat → Nat → Nat → Nat × Nat
  | [], _, _, byteIdx => (byteIdx, 0)
  | c :: rest, n, i, byteIdx =>
    let byteIdx := if n = index then i else byteIdx
    if n + 1 = index + length then
      (byteIdx, i - byteIdx + c.utf8Size)
    else
      charToByteAux index length rest (n + 1) (i + c.utf8Size) byteIdx

/-- Embedding of `char_to_byte_range(index, length, text)`. -/
def char_to_byte_range (index length : Nat) (text : List Char) : Nat × Nat :=
  charToByteAux index length text 0 0 0

/-- Byte offset of the `k`-th character boundary of `text` (sum of the
UTF-8 widths of the first `k` characters). -/
def byteOffset (text : List Char) (k : Nat) : Nat :=
  ((text.take k).map Char.utf8Size).sum

/-- Total UTF-8 byte length of `text`; models `text.len()` on `&str`. -/
def totalBytes (text : List Char) : Nat :=
  (text.map Char.utf8Size).sum

/-- A byte position that falls on a UTF-8 character boundary of `text`. -/
def IsCharBoundary (text : List Char) (b : Nat) : Prop :=
  ∃ k, k ≤ text.length ∧ byteOffset text k = b

/-- The `BTreeMap` of `create_highlight_areas`, as an association list
sorted strictly by key.  Insertion follows the `Entry` logic of the
source: a vacant key is inserted, an occupied key keeps the larger
value. -/
def btreeInsertMax (k v : Nat) : List (Nat × Nat) → List (Nat × Nat)
  | [] => [(k, v)]
  | (k2, v2) :: rest =>
    if k < k2 then (k, v) :: (k2, v2) :: rest
    else if k = k2 then (k2, if v2 < v then v else v2) :: rest
    else (k2, v2) :: btreeInsertMax k v rest

/-- Embedding of `create_highlight_areas(text, highlights)`. -/
def create_highlight_areas (text : List Char) (highlights : List Highlight) : List Nat :=
  let byteIndexes := highlights.foldl
    (fun m h =>
      let r := char_to_byte_range h.char_index h.char_length text
      btreeInsertMax r.1 r.2 m) []
  let titleAreas := 0 :: (byteIndexes.flatMap (fun p => [p.1, p.1 + p.2]) ++ [totalBytes text])
  List.insertionSort (· ≤ ·) titleAreas

/-- Wrapping `u16` subtraction on naturals encoding `u16` values:
`a - (b as u16)` modulo `2^16`, as in the remapping line of `crop_text`. -/
def wrapSub16 (a b : Nat) : Nat :=
  (a % 65536 + (65536 - b % 65536)) % 65536

/-- The crop window start: `char_index` of the first highlight (`0` when
there is none), saturating-minus `context`. -/
def cropStart (highlights : List Highlight) (context : Nat) : Nat :=
  ((highlights.head?.map fun m => m.char_index).getD 0) - context

/-- Embedding of `crop_text(text, highlights, context)`.  `peek` reads the
first highlight without consuming it, so `take_while` still scans from the
start of the sequence. -/
def crop_text (text : List Char) (highlights : List Highlight) (context : Nat) :
    List Char × List Highlight :=
  let start := cropStart highlights context
  let text2 := (text.drop start).take (context * 2)
  let kept := highlights.takeWhile fun m =>
    decide (m.char_index + m.char_length ≤ start + context * 2)
  let remapped := kept.map fun h =>
    { h with char_index := wrapSub16 h.char_index start }
  (text2, remapped)

/-- The loop of `display_highlights` over `ranges.windows(2)`: each
adjacent pair `(s, e)` emits the byte span `[s, e)` of `text` under the
current `highlighted` flag, which starts `false` and toggles after every
span.  The output sink is modelled as the returned list of
(bytes, highlighted) pairs. -/
def displayAux (text : List Nat) : List Nat → Bool → List (List Nat × Bool)
  | s :: e :: rest, highlighted =>
    ((text.drop s).take (e - s), highlighted) :: displayAux text (e :: rest) (!highlighted)
  | _, _ => []

/-- Embedding of `display_highlights(text, ranges)`; `text` is the raw
byte sequence of the rendered string. -/
def display_highlights (text : List Nat) (ranges : List Nat) : List (List Nat × Bool) :=
  displayAux text ranges false

/-- The caller contract on highlight order:
`sort_unstable_by_key(|m| (m.char_index, m.char_length))`, i.e. ascending
in the lexicographic key. -/
def HighlightLe (a b : Highlight) : Prop :=
  a.char_index < b.char_index ∨ (a.char_index = b.char_index ∧ a.char_length ≤ b.char_length)

instance : DecidableRel HighlightLe := fun a b => by
  unfold HighlightLe; infer_instance

/-- Sortedness contract for the highlight sequences fed to `crop_text`. -/
def SortedHighlights (hs : List Highlight) : Prop :=
  List.Pairwise HighlightLe hs

instance (hs : List Highlight) : Decidable (SortedHighlights hs) :=
  List.instDecidablePairwise hs

/-! Specification-side definitions.  These transcribe the words of the
spec (and, where a claim is being refuted, the words of the claim), to be
compared with the embeddings above. -/

/-- First-match lookup in an association list (total on maps whose keys
are distinct). -/
def lookupKey : List (Nat × Nat) → Nat → Option Nat
  | [], _ => none
  | (k2, v) :: t, k => if k = k2 then some v else lookupKey t k

/-- Keys of an association list are strictly increasing. -/
def SortedKeys (m : List (Nat × Nat)) : Prop :=
  List.Pairwise (fun p q : Nat × Nat => p.1 < q.1) m

/-- Maximum of two optional naturals (`none` = absent). -/
def omax : Option Nat → Option Nat → Option Nat
  | none, b => b
  | some a, none => some a
  | some a, some b => some (max a b)

/-- The byte ranges of a highlight set, in input order: each highlight
mapped through `char_to_byte_range` against `text`. -/
def rangesOf (text : List Char) (highlights : List Highlight) : List (Nat × Nat) :=
  highlights.map fun h => char_to_byte_range h.char_index h.char_length text

/-- Maximum byte length seen for byte start offset `k` among the byte
ranges `rs` (`none` when no range starts at `k`).  Follows the words of
the spec: the ordered structure stores, per start offset, the maximum
length seen for that start. -/
def maxLenAt (rs : List (Nat × Nat)) (k : Nat) : Option Nat :=
  rs.foldr (fun r acc => if r.1 = k then omax (some r.2) acc else acc) none

/-- Ordered-set insertion of a key into a strictly increasing list. -/
def insOrd (k : Nat) : List Nat → List Nat
  | [] => [k]
  | a :: t => if k < a then k :: a :: t else if k = a then a :: t else a :: insOrd k t

/-- The distinct byte start offsets of `rs`, in increasing order. -/
def sortedStarts (rs : List (Nat × Nat)) : List Nat :=
  rs.foldl (fun acc r => insOrd r.1 acc) []

/-- The ordered associative structure described by the spec: one entry per
distinct byte start offset, carrying the maximum byte length seen for that
start; entries in increasing key order. -/
def specMap (rs : List (Nat × Nat)) : List (Nat × Nat) :=
  (sortedStarts rs).map fun k => (k, (maxLenAt rs k).getD 0)

/-- Boundary list construction as the spec words it: `0`, then for each
distinct start `k` its own pair `(k, k + max length at k)` (pairs of
highlights with different starts are never merged), then the byte length
of `text`, the whole list sorted ascending. -/
def areasSpec (text : List Char) (highlights : List Highlight) : List Nat :=
  let rs := rangesOf text highlights
  List.insertionSort (· ≤ ·)
    (0 :: ((specMap rs).flatMap (fun p => [p.1, p.1 + p.2]) ++ [totalBytes text]))

/-- Renderer as the amended claim words it: for each adjacent index `j`
(0-based), the byte span from `boundary[j]` to `boundary[j+1]`,
highlighted exactly when `j` is odd. -/
def adjacentDisplay (text : List Nat) : List Nat → Nat → List (List Nat × Bool)
  | s :: e :: rest, j =>
    ((text.drop s).take (e - s), decide (j % 2 = 1)) :: adjacentDisplay text (e :: rest) (j + 1)
  | _, _ => []

/-- Renderer as claim C6 words it: the boundary list is consumed two
elements at a time, pair index `i` giving the span from `boundary[2i]` to
`boundary[2i+1]`, highlighted exactly when `i` is odd. -/
def pairwiseDisplay (text : List Nat) : List Nat → Nat → List (List Nat × Bool)
  | s :: e :: rest, i =>
    ((text.drop s).take (e - s), decide (i % 2 = 1)) :: pairwiseDisplay text rest (i + 1)
  | _, _ => []

/-- The claimed renderer semantics of C6, starting at pair index `0`. -/
def display_claimed (text : List Nat) (ranges : List Nat) : List (List Nat × Bool) :=
  pairwiseDisplay text ranges 0

/-- The window condition of claims C4 and C8: a highlight fits the crop
window when `char_index + char_length ≤ start + 2*context`. -/
def withinWindow (start context : Nat) (m : Highlight) : Prop :=
  m.char_index + m.char_length ≤ start + 2 * context

instance (start context : Nat) (m : Highlight) : Decidable (withinWindow start context m) := by
  unfold withinWindow
  infer_instance

/-- Index of the first highlight violating the window condition
(`hs.length` when every highlight fits). -/
def firstViolation (hs : List Highlight) (context : Nat) : Nat :=
  hs.findIdx fun m => decide (¬ withinWindow (cropStart hs context) context m)

/-- The `BTreeMap` of `create_highlight_areas` after all insertions, as a
function of the byte-range list. -/
def buildMap (rs : List (Nat × Nat)) : List (Nat × Nat) :=
  rs.foldl (fun m r => btreeInsertMax r.1 r.2 m) []

/-! Lemmas about `byteOffset` and `totalBytes`. -/

theorem byteOffset_zero (text : List Char) : byteOffset text 0 = 0 := by
  simp [byteOffset]

theorem byteOffset_cons_succ (c : Char) (cs : List Char) (k : Nat) :
    byteOffset (c :: cs) (k + 1) = c.utf8Size + byteOffset cs k := by
  simp [byteOffset]

theorem byteOffset_one (c : Char) (cs : List Char) : byteOffset (c :: cs) 1 = c.utf8Size := by
  simpa [byteOffset_zero] using byteOffset_cons_succ c cs 0

theorem byteOffset_le_total (text : List Char) (k : Nat) :
    byteOffset text k ≤ totalBytes text := by
  have h : totalBytes text = byteOffset text k + ((text.drop k).map Char.utf8Size).sum := by
    rw [totalBytes, byteOffset]
    calc (text.map Char.utf8Size).sum
        = ((text.take k ++ text.drop k).map Char.utf8Size).sum := by
          rw [List.take_append_drop]
      _ = ((text.take k).map Char.utf8Size).sum + ((text.drop k).map Char.utf8Size).sum := by
          simp [List.map_append]
  omega

theorem byteOffset_mono (text : List Char) {k m : Nat} (h : k ≤ m) :
    byteOffset text k ≤ byteOffset text m := by
  have h1 : byteOffset text k = byteOffset (text.take m) k := by
    simp [byteOffset, List.take_take, Nat.min_eq_left h]
  have h2 : totalBytes (text.take m) = byteOffset text m := by
    simp [totalBytes, byteOffset]
  rw [h1, ← h2]
  exact byteOffset_le_total _ _

/-! Characterization of the `char_to_byte_range` scan, by the phase the
loop is in when the text runs out or the break fires. -/

theorem charToByteAux_nil (index length n i bi : Nat) :
    charToByteAux index length [] n i bi = (bi, 0) := rfl

theorem charToByteAux_cons (index length : Nat) (c : Char) (rest : List Char) (n i bi : Nat) :
    charToByteAux index length (c :: rest) n i bi =
      (if n + 1 = index + length then
        ((if n = index then i else bi), i - (if n = index then i else bi) + c.utf8Size)
      else
        charToByteAux index length rest (n + 1) (i + c.utf8Size) (if n = index then i else bi)) := by
  rfl

/-- Phase after `byte_index` was recorded (`index < n`), before the break
(`n < index + length`): the loop breaks inside `cs` and reports the byte
distance from `bi`. -/
theorem charToByteAux_phase2 (index length : Nat) :
    ∀ (cs : List Char) (n i bi : Nat), index < n → n < index + length →
      index + length ≤ n + cs.length → bi ≤ i →
      charToByteAux index length cs n i bi = (bi, i + byteOffset cs (index + length - n) - bi)
  | [], n, i, bi, h1, h2, h3, _ => by
    exfalso
    simp only [List.length_nil, Nat.add_zero] at h3
    omega
  | c :: rest, n, i, bi, h1, h2, h3, h4 => by
    rw [charToByteAux_cons]
    have hne : ¬ n = index := by omega
    simp only [if_neg hne, List.length_cons] at *
    by_cases hbr : n + 1 = index + length
    · simp only [if_pos hbr]
      have hk : index + length - n = 1 := by omega
      rw [hk, byteOffset_one]
      have : i - bi + c.utf8Size = i + c.utf8Size - bi := by omega
      rw [this]
    · simp only [if_neg hbr]
      rw [charToByteAux_phase2 index length rest (n + 1) (i + c.utf8Size) bi
        (by omega) (by omega) (by omega) (by omega)]
      have hk : index + length - n = (index + length - (n + 1)) + 1 := by omega
      rw [hk, byteOffset_cons_succ]
      have : i + c.utf8Size + byteOffset rest (index + length - (n + 1)) =
          i + (c.utf8Size + byteOffset rest (index + length - (n + 1))) := by omega
      rw [this]

/-- In-range scan with `length ≥ 1`: both the recorded byte offset and the
reported byte length are character-boundary distances. -/
theorem charToByteAux_inRange (index length : Nat) :
    ∀ (cs : List Char) (n i bi : Nat), n ≤ index → 1 ≤ length →
      index + length ≤ n + cs.length →
      charToByteAux index length cs n i bi =
        (i + byteOffset cs (index - n),
         byteOffset cs (index + length - n) - byteOffset cs (index - n))
  | [], n, _, _, h1, h2, h3 => by
    exfalso
    simp only [List.length_nil, Nat.add_zero] at h3
    omega
  | c :: rest, n, i, bi, h1, h2, h3 => by
    rw [charToByteAux_cons]
    simp only [List.length_cons] at h3
    by_cases he : n = index
    · simp only [if_pos he]
      by_cases hbr : n + 1 = index + length
      · simp only [if_pos hbr]
        have hl0 : index - n = 0 := by omega
        have hl1 : index + length - n = 1 := by omega
        rw [hl0, hl1, byteOffset_zero, byteOffset_one]
        have e1 : i + 0 = i := by omega
        have e2 : i - i + c.utf8Size = c.utf8Size - 0 := by omega
        rw [e1, e2]
      · simp only [if_neg hbr]
        rw [charToByteAux_phase2 index length rest (n + 1) (i + c.utf8Size) i
          (by omega) (by omega) (by omega) (by omega)]
        have hl0 : index - n = 0 := by omega
        have hk : index + length - n = (index + length - (n + 1)) + 1 := by omega
        rw [hl0, hk, byteOffset_zero, byteOffset_cons_succ]
        have e1 : i + 0 = i := by omega
        have e2 : i + c.utf8Size + byteOffset rest (index + length - (n + 1)) - i =
            c.utf8Size + byteOffset rest (index + length - (n + 1)) - 0 := by omega
        rw [e1, e2]
    · have hlt : n < index := by omega
      simp only [if_neg he]
      have hbr : ¬ n + 1 = index + length := by omega
      simp only [if_neg hbr]
      rw [charToByteAux_inRange index length rest (n + 1) (i + c.utf8Size) bi
        (by omega) h2 (by omega)]
      have hk1 : index - n = (index - (n + 1)) + 1 := by omega
      have hk2 : index + length - n = (index + length - (n + 1)) + 1 := by omega
      rw [hk1, hk2, byteOffset_cons_succ, byteOffset_cons_succ]
      have e1 : i + c.utf8Size + byteOffset rest (index - (n + 1)) =
          i + (c.utf8Size + byteOffset rest (index - (n + 1))) := by omega
      have e2 : c.utf8Size + byteOffset rest (index + length - (n + 1)) -
          (c.utf8Size + byteOffset rest (index - (n + 1))) =
          byteOffset rest (index + length - (n + 1)) - byteOffset rest (index - (n + 1)) := by
        omega
      rw [e1, e2]

/-- Once the loop position has passed both trigger points, nothing changes
any more: the accumulators are returned as they stand. -/
theorem charToByteAux_done (index length : Nat) :
    ∀ (cs : List Char) (n i bi : Nat), index + length ≤ n → index < n →
      charToByteAux index length cs n i bi = (bi, 0)
  | [], _, _, _, _, _ => rfl
  | c :: rest, n, i, bi, h1, h2 => by
    rw [charToByteAux_cons]
    have hne : ¬ n = index := by omega
    have hbr : ¬ n + 1 = index + length := by omega
    simp only [if_neg hne, if_neg hbr]
    exact charToByteAux_done index length rest (n + 1) (i + c.utf8Size) bi (by omega) (by omega)

/-- Scan that runs off the end of the text: `byte_length` is never set,
and `byte_index` was set only if the loop visited character `index`. -/
theorem charToByteAux_overflow (index length : Nat) :
    ∀ (cs : List Char) (n i bi : Nat), n + cs.length < index + length →
      charToByteAux index length cs n i bi =
        ((if n ≤ index ∧ index < n + cs.length then i + byteOffset cs (index - n) else bi), 0)
  | [], n, i, bi, _ => by
    rw [charToByteAux_nil]
    have hc : ¬ (n ≤ index ∧ index < n + ([] : List Char).length) := by
      simp only [List.length_nil, Nat.add_zero]
      omega
    rw [if_neg hc]
  | c :: rest, n, i, bi, h => by
    rw [charToByteAux_cons]
    simp only [List.length_cons] at h ⊢
    have hbr : ¬ n + 1 = index + length := by omega
    simp only [if_neg hbr]
    by_cases he : n = index
    · simp only [if_pos he]
      rw [charToByteAux_overflow index length rest (n + 1) (i + c.utf8Size) i (by omega)]
      have hc1 : ¬ (n + 1 ≤ index ∧ index < n + 1 + rest.length) := by omega
      rw [if_neg hc1]
      have hc2 : n ≤ index ∧ index < n + (rest.length + 1) := by omega
      rw [if_pos hc2]
      have hl0 : index - n = 0 := by omega
      rw [hl0, byteOffset_zero, Nat.add_zero]
    · simp only [if_neg he]
      rw [charToByteAux_overflow index length rest (n + 1) (i + c.utf8Size) bi (by omega)]
      by_cases hc : n + 1 ≤ index ∧ index < n + 1 + rest.length
      · rw [if_pos hc]
        have hc2 : n ≤ index ∧ index < n + (rest.length + 1) := by omega
        rw [if_pos hc2]
        have hk : index - n = (index - (n + 1)) + 1 := by omega
        rw [hk, byteOffset_cons_succ]
        have e1 : i + c.utf8Size + byteOffset rest (index - (n + 1)) =
            i + (c.utf8Size + byteOffset rest (index - (n + 1))) := by omega
        rw [e1]
      · rw [if_neg hc]
        have hc2 : ¬ (n ≤ index ∧ index < n + (rest.length + 1)) := by omega
        rw [if_neg hc2]

/-- Zero-length request with the start strictly ahead of the position: the
break fires one character early, before `byte_index` is ever recorded. -/
theorem charToByteAux_len0 (index : Nat) :
    ∀ (cs : List Char) (n i bi : Nat), n < index → index ≤ n + cs.length → bi ≤ i →
      charToByteAux index 0 cs n i bi = (bi, i + byteOffset cs (index - n) - bi)
  | [], n, _, _, h1, h2, _ => by
    exfalso
    simp only [List.length_nil, Nat.add_zero] at h2
    omega
  | c :: rest, n, i, bi, h1, h2, h3 => by
    rw [charToByteAux_cons]
    simp only [List.length_cons] at h2
    have hne : ¬ n = index := by omega
    simp only [if_neg hne]
    by_cases hbr : n + 1 = index + 0
    · simp only [if_pos hbr]
      have hk : index - n = 1 := by omega
      rw [hk, byteOffset_one]
      have : i - bi + c.utf8Size = i + c.utf8Size - bi := by omega
      rw [this]
    · simp only [if_neg hbr]
      rw [charToByteAux_len0 index rest (n + 1) (i + c.utf8Size) bi
        (by omega) (by omega) (by omega)]
      have hk : index - n = (index - (n + 1)) + 1 := by omega
      rw [hk, byteOffset_cons_succ]
      have e1 : i + c.utf8Size + byteOffset rest (index - (n + 1)) =
          i + (c.utf8Size + byteOffset rest (index - (n + 1))) := by omega
      rw [e1]

/-- Whatever the request, the reported range never reaches past the byte
length of the remaining text. -/
theorem charToByteAux_sum_le (index length : Nat) :
    ∀ (cs : List Char) (n i bi : Nat), bi ≤ i →
      (charToByteAux index length cs n i bi).1 + (charToByteAux index length cs n i bi).2 ≤
        i + totalBytes cs
  | [], n, i, bi, h => by
    rw [charToByteAux_nil]
    simp only [totalBytes, List.map_nil, List.sum_nil]
    omega
  | c :: rest, n, i, bi, h => by
    rw [charToByteAux_cons]
    have hbi2 : (if n = index then i else bi) ≤ i := by split <;> omega
    by_cases hbr : n + 1 = index + length
    · simp only [if_pos hbr]
      simp only [totalBytes, List.map_cons, List.sum_cons]
      omega
    · simp only [if_neg hbr]
      have ih := charToByteAux_sum_le index length rest (n + 1) (i + c.utf8Size)
        (if n = index then i else bi) (by omega)
      simp only [totalBytes, List.map_cons, List.sum_cons] at ih ⊢
      omega

/-! Top-level characterizations of `char_to_byte_range`. -/

theorem char_to_byte_range_inRange (text : List Char) (index length : Nat)
    (h1 : 1 ≤ length) (h2 : index + length ≤ text.length) :
    char_to_byte_range index length text =
      (byteOffset text index, byteOffset text (index + length) - byteOffset text index) := by
  unfold char_to_byte_range
  rw [charToByteAux_inRange index length text 0 0 0 (Nat.zero_le _) h1 (by omega)]
  simp

theorem char_to_byte_range_len0_pos (text : List Char) (index : Nat)
    (h1 : 1 ≤ index) (h2 : index ≤ text.length) :
    char_to_byte_range index 0 text = (0, byteOffset text index) := by
  unfold char_to_byte_range
  rw [charToByteAux_len0 index text 0 0 0 (by omega) (by omega) (Nat.le_refl 0)]
  simp

theorem char_to_byte_range_zero_zero (text : List Char) :
    char_to_byte_range 0 0 text = (0, 0) := by
  cases text with
  | nil => rfl
  | cons c rest =>
    unfold char_to_byte_range
    rw [charToByteAux_cons]
    have hbr : ¬ (0 : Nat) + 1 = 0 + 0 := by omega
    simp only [if_pos rfl, if_neg hbr]
    exact charToByteAux_done 0 0 rest 1 (0 + c.utf8Size) 0 (by omega) (by omega)

theorem char_to_byte_range_sum_le (index length : Nat) (text : List Char) :
    (char_to_byte_range index length text).1 + (char_to_byte_range index length text).2 ≤
      totalBytes text := by
  have h := charToByteAux_sum_le index length text 0 0 0 (Nat.le_refl 0)
  simpa using h

/-! Claim theorems about `char_to_byte_range` and `crop_text` scenarios. -/

/-- Claim C2, counterexample: for `"hello"` and the out-of-range request
`(char_index, char_length) = (2, 10)` the function does not return
`(0, 0)`: the scan had already recorded `byte_index = 2` when the text ran
out, so the result is `(2, 0)`. -/
theorem c2_counterexample :
    ("hello".data).length < 2 + 10 ∧ char_to_byte_range 2 10 "hello".data ≠ (0, 0) := by
  constructor
  · decide
  · decide

/-- Claim C2 as amended: for every text and every `(char_index,
char_length)` whose sum exceeds the character count, `byte_length` is `0`,
and `byte_index` is the byte offset of character `char_index` when that
character exists and `0` otherwise. -/
theorem c2_amended_out_of_range (text : List Char) (index length : Nat)
    (h : text.length < index + length) :
    char_to_byte_range index length text =
      ((if index < text.length then byteOffset text index else 0), 0) := by
  unfold char_to_byte_range
  rw [charToByteAux_overflow index length text 0 0 0 (by omega)]
  simp only [Nat.zero_le, true_and, Nat.zero_add, Nat.sub_zero]

/-- Claim C2 witness: the amended statement instantiated at `"hi"` with
request `(1, 5)`. -/
theorem c2_amended_out_of_range_witness :
    ("hi".data).length < 1 + 5 ∧
    char_to_byte_range 1 5 "hi".data =
      ((if 1 < ("hi".data).length then byteOffset "hi".data 1 else 0), 0) :=
  ⟨by decide, c2_amended_out_of_range "hi".data 1 5 (by decide)⟩

/-- Claim C7: for every text and in-range request, both returned values
denote UTF-8 character boundaries: `byte_index` is a boundary byte offset
and so is `byte_index + byte_length`. -/
theorem c7_char_boundaries (text : List Char) (index length : Nat)
    (h : index + length ≤ text.length) :
    IsCharBoundary text (char_to_byte_range index length text).1 ∧
    IsCharBoundary text
      ((char_to_byte_range index length text).1 + (char_to_byte_range index length text).2) := by
  rcases Nat.eq_zero_or_pos length with hl | hl
  · subst hl
    rcases Nat.eq_zero_or_pos index with hi | hi
    · subst hi
      rw [char_to_byte_range_zero_zero]
      exact ⟨⟨0, Nat.zero_le _, byteOffset_zero text⟩, ⟨0, Nat.zero_le _, byteOffset_zero text⟩⟩
    · rw [char_to_byte_range_len0_pos text index hi (by omega)]
      refine ⟨⟨0, Nat.zero_le _, byteOffset_zero text⟩, ⟨index, by omega, ?_⟩⟩
      dsimp only
      omega
  · rw [char_to_byte_range_inRange text index length hl h]
    have hmono := byteOffset_mono text (show index ≤ index + length by omega)
    refine ⟨⟨index, by omega, rfl⟩, ⟨index + length, by omega, ?_⟩⟩
    dsimp only
    omega

/-- Claim C7 witness: the request `(1, 1)` on `"aéb"` (whose middle
character is two bytes wide) yields boundary offsets. -/
theorem c7_char_boundaries_witness :
    1 + 1 ≤ ("aéb".data).length ∧
    (IsCharBoundary "aéb".data (char_to_byte_range 1 1 "aéb".data).1 ∧
     IsCharBoundary "aéb".data
       ((char_to_byte_range 1 1 "aéb".data).1 + (char_to_byte_range 1 1 "aéb".data).2)) :=
  ⟨by decide, c7_char_boundaries "aéb".data 1 1 (by decide)⟩

/-- Claim C10: a zero-length request at `1 ≤ char_index ≤` character
count returns `(0, b)` with `b` the byte offset of character `char_index`
(a nonzero byte length for a zero-character request), while the request
`(0, 0)` returns `(0, 0)`. -/
theorem c10_zero_length (text : List Char) (index : Nat)
    (h1 : 1 ≤ index) (h2 : index ≤ text.length) :
    char_to_byte_range index 0 text = (0, byteOffset text index) ∧
    char_to_byte_range 0 0 text = (0, 0) :=
  ⟨char_to_byte_range_len0_pos text index h1 h2, char_to_byte_range_zero_zero text⟩

/-- Claim C10 witness: instantiated at `"hello"` with `char_index = 3`. -/
theorem c10_zero_length_witness :
    (1 ≤ 3 ∧ 3 ≤ ("hello".data).length) ∧
    (char_to_byte_range 3 0 "hello".data = (0, byteOffset "hello".data 3) ∧
     char_to_byte_range 0 0 "hello".data = (0, 0)) :=
  ⟨by decide, c10_zero_length "hello".data 3 (by decide) (by decide)⟩

/-- Claim C1, counterexample: for `"hello world"`, the single highlight
`{char_index 6, char_length 5}` and `context = 3`, the cropped text is
indeed `"lo wor"` but the highlight is not kept: `6 + 5 = 11` exceeds
`start + 2*context = 9`, so the `take_while` drops it and the returned
highlight list is empty rather than `[{char_index 3, char_length 5}]`. -/
theorem c1_counterexample :
    (crop_text "hello world".data [⟨0, 6, 5⟩] 3).1 = "lo wor".data ∧
    (crop_text "hello world".data [⟨0, 6, 5⟩] 3).2 ≠ [⟨0, 3, 5⟩] := by
  constructor
  · decide
  · decide

/-- Claim C1 as amended: for `"hello world"`, highlight
`{char_index 6, char_length 5}` and `context = 3`, `crop` returns the
cropped text `"lo wor"` and the empty highlight list (the highlight is
discarded because `6 + 5 = 11 > start + 2*context = 9`). -/
theorem c1_amended_crop_scenario :
    crop_text "hello world".data [⟨0, 6, 5⟩] 3 = ("lo wor".data, []) := by
  decide

/-! The crop-window claims C4 and C8. -/

theorem takeWhile_eq_take_findIdx {α : Type} (p : α → Bool) (l : List α) :
    l.takeWhile p = l.take (l.findIdx fun a => !(p a)) := by
  induction l with
  | nil => rfl
  | cons a t ih =>
    rw [List.takeWhile_cons, List.findIdx_cons]
    by_cases h : p a = true
    · simp [h, ih]
    · simp [h]

theorem sortedHead_le {h0 : Highlight} {t : List Highlight}
    (hsorted : SortedHighlights (h0 :: t)) :
    ∀ m ∈ h0 :: t, h0.char_index ≤ m.char_index := by
  intro m hm
  rcases List.mem_cons.mp hm with rfl | hm
  · exact Nat.le_refl _
  · rcases (List.pairwise_cons.mp hsorted).1 m hm with hlt | ⟨heq, _⟩
    · exact Nat.le_of_lt hlt
    · exact Nat.le_of_eq heq

theorem wrapSub16_eq_sub {a b : Nat} (hba : b ≤ a) (ha : a < 65536) :
    wrapSub16 a b = a - b := by
  unfold wrapSub16
  omega

theorem cropStart_le_head_char_index (h0 : Highlight) (t : List Highlight) (context : Nat) :
    cropStart (h0 :: t) context ≤ h0.char_index :=
  Nat.sub_le h0.char_index context

/-- The `take_while` predicate written in the source equals the decidable
form of `withinWindow`. -/
theorem crop_pred_eq (start context : Nat) :
    (fun m : Highlight => decide (m.char_index + m.char_length ≤ start + context * 2)) =
      (fun m : Highlight => decide (withinWindow start context m)) := by
  funext m
  apply decide_eq_decide.mpr
  unfold withinWindow
  omega

/-- Claim C4: `crop` keeps exactly the longest prefix of the (sorted)
highlight sequence that satisfies the window bound, cutting at the first
violating highlight; each kept highlight has `start` subtracted from its
`char_index` (an honest subtraction: no wrap) and its other fields
unchanged. -/
theorem c4_crop_prefix (text : List Char) (hs : List Highlight) (context : Nat)
    (hsorted : SortedHighlights hs)
    (hbound : ∀ h ∈ hs, h.char_index < 65536) :
    (crop_text text hs context).2 =
      (hs.take (firstViolation hs context)).map
        (fun h => { h with char_index := h.char_index - cropStart hs context }) ∧
    (∀ m ∈ hs.take (firstViolation hs context),
      withinWindow (cropStart hs context) context m) ∧
    (∀ m, hs.get? (firstViolation hs context) = some m →
      ¬ withinWindow (cropStart hs context) context m) := by
  have hkept : hs.takeWhile
      (fun m : Highlight => decide (m.char_index + m.char_length ≤
        cropStart hs context + context * 2)) =
      hs.take (firstViolation hs context) := by
    rw [crop_pred_eq (cropStart hs context) context,
      takeWhile_eq_take_findIdx]
    have hfun : (fun a : Highlight =>
        !(decide (withinWindow (cropStart hs context) context a))) =
        (fun m : Highlight => decide (¬ withinWindow (cropStart hs context) context m)) := by
      funext m
      rw [decide_not]
    rw [hfun]
    rfl
  have hstart_le : ∀ m ∈ hs.takeWhile
      (fun m : Highlight => decide (m.char_index + m.char_length ≤
        cropStart hs context + context * 2)),
      cropStart hs context ≤ m.char_index := by
    intro m hm
    have hmem : m ∈ hs := by
      rw [hkept] at hm
      exact List.take_subset _ _ hm
    cases hs with
    | nil => cases hmem
    | cons h0 t =>
      exact Nat.le_trans (cropStart_le_head_char_index h0 t context)
        (sortedHead_le hsorted m hmem)
  refine ⟨?_, ?_, ?_⟩
  · show (hs.takeWhile _).map _ = _
    rw [hkept]
    apply List.map_congr_left
    intro h hm
    have hle : cropStart hs context ≤ h.char_index := by
      apply hstart_le
      rw [hkept]
      exact hm
    have hb : h.char_index < 65536 := hbound h (List.take_subset _ _ hm)
    rw [wrapSub16_eq_sub hle hb]
  · intro m hm
    rw [← hkept] at hm
    have := List.mem_takeWhile_imp hm
    simp only [decide_eq_true_iff] at this
    unfold withinWindow
    omega
  · intro m hm
    rcases List.get?_eq_some.mp hm with ⟨hlt, hget⟩
    unfold firstViolation at hlt hget
    have hfind := @List.findIdx_get _
      (fun m : Highlight => decide (¬ withinWindow (cropStart hs context) context m)) hs hlt
    rw [hget] at hfind
    simp only [decide_eq_true_iff] at hfind
    exact hfind

/-- Claim C4 witness: a sorted pair where the first highlight violates the
bound while the second satisfies it, so the whole tail is discarded. -/
theorem c4_crop_prefix_witness :
    (SortedHighlights [⟨0, 2, 9⟩, ⟨0, 3, 1⟩] ∧
     ∀ h ∈ ([⟨0, 2, 9⟩, ⟨0, 3, 1⟩] : List Highlight), h.char_index < 65536) ∧
    ((crop_text "hello world".data [⟨0, 2, 9⟩, ⟨0, 3, 1⟩] 3).2 =
      (([⟨0, 2, 9⟩, ⟨0, 3, 1⟩] : List Highlight).take
        (firstViolation [⟨0, 2, 9⟩, ⟨0, 3, 1⟩] 3)).map
        (fun h => { h with
          char_index := h.char_index - cropStart [⟨0, 2, 9⟩, ⟨0, 3, 1⟩] 3 }) ∧
    (∀ m ∈ ([⟨0, 2, 9⟩, ⟨0, 3, 1⟩] : List Highlight).take
        (firstViolation [⟨0, 2, 9⟩, ⟨0, 3, 1⟩] 3),
      withinWindow (cropStart [⟨0, 2, 9⟩, ⟨0, 3, 1⟩] 3) 3 m) ∧
    (∀ m, ([⟨0, 2, 9⟩, ⟨0, 3, 1⟩] : List Highlight).get?
        (firstViolation [⟨0, 2, 9⟩, ⟨0, 3, 1⟩] 3) = some m →
      ¬ withinWindow (cropStart [⟨0, 2, 9⟩, ⟨0, 3, 1⟩] 3) 3 m)) :=
  ⟨⟨by decide, by decide⟩,
   c4_crop_prefix "hello world".data [⟨0, 2, 9⟩, ⟨0, 3, 1⟩] 3 (by decide) (by decide)⟩

/-- Claim C8: every highlight kept by `crop` is remapped without
underflow: its output `char_index` is the honest difference between the
original `char_index` and the window start, which never exceeds the
original `char_index` of a kept highlight when the input is sorted. -/
theorem c8_no_underflow (text : List Char) (hs : List Highlight) (context : Nat)
    (hsorted : SortedHighlights hs)
    (hbound : ∀ h ∈ hs, h.char_index < 65536) :
    ∀ m ∈ (crop_text text hs context).2, ∃ h ∈ hs,
      cropStart hs context ≤ h.char_index ∧
      m.char_index = h.char_index - cropStart hs context := by
  intro m hm
  have hm2 : m ∈ (hs.takeWhile
      (fun m : Highlight => decide (m.char_index + m.char_length ≤
        cropStart hs context + context * 2))).map
      (fun h => { h with char_index := wrapSub16 h.char_index (cropStart hs context) }) := hm
  rcases List.mem_map.mp hm2 with ⟨h, hmem_tw, rfl⟩
  have hmem : h ∈ hs := by
    have hsub : hs.takeWhile
        (fun m : Highlight => decide (m.char_index + m.char_length ≤
          cropStart hs context + context * 2)) ⊆ hs := by
      rw [takeWhile_eq_take_findIdx]
      exact List.take_subset _ _
    exact hsub hmem_tw
  have hle : cropStart hs context ≤ h.char_index := by
    cases hs with
    | nil => cases hmem
    | cons h0 t =>
      exact Nat.le_trans (cropStart_le_head_char_index h0 t context)
        (sortedHead_le hsorted h hmem)
  exact ⟨h, hmem, hle, wrapSub16_eq_sub hle (hbound h hmem)⟩

/-- Claim C8 witness: on `"hello world"` with context 5 the highlight
`{char_index 6, char_length 5}` is kept and remapped to `char_index 5`. -/
theorem c8_no_underflow_witness :
    (SortedHighlights [⟨0, 6, 5⟩] ∧
     ∀ h ∈ ([⟨0, 6, 5⟩] : List Highlight), h.char_index < 65536) ∧
    (∀ m ∈ (crop_text "hello world".data [⟨0, 6, 5⟩] 5).2, ∃ h ∈ ([⟨0, 6, 5⟩] : List Highlight),
      cropStart [⟨0, 6, 5⟩] 5 ≤ h.char_index ∧
      m.char_index = h.char_index - cropStart [⟨0, 6, 5⟩] 5) :=
  ⟨⟨by decide, by decide⟩,
   c8_no_underflow "hello world".data [⟨0, 6, 5⟩] 5 (by decide) (by decide)⟩

/-! The renderer claim C6. -/

theorem displayAux_eq_adjacent (text : List Nat) :
    ∀ (ranges : List Nat) (j : Nat),
      displayAux text ranges (decide (j % 2 = 1)) = adjacentDisplay text ranges j
  | [], _ => rfl
  | [_], _ => rfl
  | s :: e :: rest, j => by
    show ((text.drop s).take (e - s), decide (j % 2 = 1)) ::
        displayAux text (e :: rest) (!(decide (j % 2 = 1))) =
      ((text.drop s).take (e - s), decide (j % 2 = 1)) ::
        adjacentDisplay text (e :: rest) (j + 1)
    congr 1
    have hb : (!(decide (j % 2 = 1))) = decide ((j + 1) % 2 = 1) := by
      rw [← decide_not]
      apply decide_eq_decide.mpr
      omega
    rw [hb]
    exact displayAux_eq_adjacent text (e :: rest) (j + 1)

/-- Claim C6, counterexample: on the nine-byte text and the boundary list
`[0, 2, 5, 9]` the renderer walks adjacent windows (three spans with the
middle one highlighted), not disjoint index pairs as the claim reads. -/
theorem c6_counterexample :
    display_highlights [10, 11, 12, 13, 14, 15, 16, 17, 18] [0, 2, 5, 9] ≠
      display_claimed [10, 11, 12, 13, 14, 15, 16, 17, 18] [0, 2, 5, 9] := by
  decide

/-- Claim C6 as amended: for every boundary list, the renderer emits, for
each adjacent index `j` (0-based), the byte span from `boundary[j]` to
`boundary[j+1]`, highlighted when `j` is odd and plain when `j` is even,
with the first emitted span plain. -/
theorem c6_amended_adjacent_spans (text : List Nat) (ranges : List Nat) :
    display_highlights text ranges = adjacentDisplay text ranges 0 := by
  have h := displayAux_eq_adjacent text ranges 0
  have h0 : decide ((0 : Nat) % 2 = 1) = false := by decide
  rw [h0] at h
  exact h

/-! Boundary-list invariants for claims C3 and C9. -/

theorem create_highlight_areas_form (text : List Char) (highlights : List Highlight) :
    create_highlight_areas text highlights =
      List.insertionSort (· ≤ ·)
        (0 :: ((buildMap (rangesOf text highlights)).flatMap (fun p => [p.1, p.1 + p.2]) ++
          [totalBytes text])) := by
  unfold create_highlight_areas buildMap rangesOf
  rw [List.foldl_map]

theorem mem_btreeInsertMax_le {B : Nat} :
    ∀ (m : List (Nat × Nat)) (k v : Nat), (∀ p ∈ m, p.1 + p.2 ≤ B) → k + v ≤ B →
      ∀ p ∈ btreeInsertMax k v m, p.1 + p.2 ≤ B
  | [], k, v, _, hkv => by
    intro p hp
    unfold btreeInsertMax at hp
    rcases List.mem_singleton.mp hp with rfl
    exact hkv
  | (k2, v2) :: rest, k, v, hm, hkv => by
    intro p hp
    unfold btreeInsertMax at hp
    by_cases h1 : k < k2
    · rw [if_pos h1] at hp
      rcases List.mem_cons.mp hp with rfl | hp2
      · exact hkv
      · exact hm p hp2
    · rw [if_neg h1] at hp
      by_cases h2 : k = k2
      · rw [if_pos h2] at hp
        rcases List.mem_cons.mp hp with rfl | hp2
        · have h0 := hm (k2, v2) (List.mem_cons_self _ _)
          dsimp only at h0 ⊢
          subst h2
          split <;> omega
        · exact hm p (List.mem_cons_of_mem _ hp2)
      · rw [if_neg h2] at hp
        rcases List.mem_cons.mp hp with rfl | hp2
        · exact hm _ (List.mem_cons_self _ _)
        · exact mem_btreeInsertMax_le rest k v
            (fun q hq => hm q (List.mem_cons_of_mem _ hq)) hkv p hp2

theorem mem_foldl_insert_le {B : Nat} :
    ∀ (rs : List (Nat × Nat)) (m0 : List (Nat × Nat)),
      (∀ p ∈ m0, p.1 + p.2 ≤ B) → (∀ r ∈ rs, r.1 + r.2 ≤ B) →
      ∀ p ∈ rs.foldl (fun m r => btreeInsertMax r.1 r.2 m) m0, p.1 + p.2 ≤ B
  | [], m0, hm, _ => by
    intro p hp
    rw [List.foldl_nil] at hp
    exact hm p hp
  | r :: rs, m0, hm, hr => by
    intro p hp
    rw [List.foldl_cons] at hp
    exact mem_foldl_insert_le rs _
      (mem_btreeInsertMax_le m0 r.1 r.2 hm (hr r (List.mem_cons_self _ _)))
      (fun q hq => hr q (List.mem_cons_of_mem _ hq)) p hp

theorem mem_buildMap_le (text : List Char) (highlights : List Highlight) :
    ∀ p ∈ buildMap (rangesOf text highlights), p.1 + p.2 ≤ totalBytes text := by
  apply mem_foldl_insert_le
  · intro p hp
    cases hp
  · intro r hr
    rcases List.mem_map.mp hr with ⟨h, _, rfl⟩
    exact char_to_byte_range_sum_le _ _ _

theorem flatMap_pairs_length (m : List (Nat × Nat)) :
    (m.flatMap fun p => [p.1, p.1 + p.2]).length = 2 * m.length := by
  induction m with
  | nil => rfl
  | cons p t ih =>
    rw [List.flatMap_cons, List.length_append, ih, List.length_cons]
    simp only [List.length_cons, List.length_nil]
    omega

theorem sorted_head?_eq {l : List Nat} (hs : List.Sorted (· ≤ ·) l) {x : Nat}
    (hx : x ∈ l) (hmin : ∀ y ∈ l, x ≤ y) : l.head? = some x := by
  cases l with
  | nil => cases hx
  | cons a t =>
    have hxa : x ≤ a := hmin a (List.mem_cons_self _ _)
    have hax : a ≤ x := by
      rcases List.mem_cons.mp hx with rfl | hx2
      · exact Nat.le_refl _
      · exact (List.pairwise_cons.mp hs).1 x hx2
    rw [List.head?_cons]
    exact congrArg some (Nat.le_antisymm hax hxa)

theorem sorted_getLast?_eq (l : List Nat) (x : Nat) :
    List.Sorted (· ≤ ·) l → x ∈ l → (∀ y ∈ l, y ≤ x) → l.getLast? = some x := by
  induction l with
  | nil => intro _ hx _; cases hx
  | cons a t ih =>
    intro hs hx hmax
    cases t with
    | nil =>
      have hxa : x = a := by
        rcases List.mem_cons.mp hx with rfl | h
        · rfl
        · cases h
      rw [hxa]
      rfl
    | cons b t2 =>
      have hs2 : List.Sorted (· ≤ ·) (b :: t2) := hs.of_cons
      have hx2 : x ∈ b :: t2 := by
        rcases List.mem_cons.mp hx with rfl | h
        · have hab : x ≤ b :=
            (List.pairwise_cons.mp hs).1 b (List.mem_cons_self _ _)
          have hbx : b ≤ x := hmax b (List.mem_cons_of_mem _ (List.mem_cons_self _ _))
          have hbe : b = x := Nat.le_antisymm hbx hab
          rw [← hbe]
          exact List.mem_cons_self _ _
        · exact h
      have hmax2 : ∀ y ∈ b :: t2, y ≤ x := fun y hy => hmax y (List.mem_cons_of_mem _ hy)
      rw [List.getLast?_cons_cons]
      exact ih hs2 hx2 hmax2

/-- Shared invariant bundle: whatever the highlight slice, the boundary
list is non-decreasing, of even length at least 2, starts at `0` and ends
at the byte length of the text. -/
theorem areas_invariants (text : List Char) (highlights : List Highlight) :
    List.Sorted (· ≤ ·) (create_highlight_areas text highlights) ∧
    2 ≤ (create_highlight_areas text highlights).length ∧
    (create_highlight_areas text highlights).length % 2 = 0 ∧
    (create_highlight_areas text highlights).head? = some 0 ∧
    (create_highlight_areas text highlights).getLast? = some (totalBytes text) := by
  rw [create_highlight_areas_form]
  set l0 := 0 :: ((buildMap (rangesOf text highlights)).flatMap (fun p => [p.1, p.1 + p.2]) ++
    [totalBytes text]) with hl0
  have hsorted : List.Sorted (· ≤ ·) (List.insertionSort (· ≤ ·) l0) :=
    List.sorted_insertionSort _ l0
  have hperm : (List.insertionSort (· ≤ ·) l0).Perm l0 := List.perm_insertionSort _ l0
  have hmem0 : (0 : Nat) ∈ List.insertionSort (· ≤ ·) l0 := by
    rw [hperm.mem_iff, hl0]
    exact List.mem_cons_self _ _
  have hmemT : totalBytes text ∈ List.insertionSort (· ≤ ·) l0 := by
    rw [hperm.mem_iff, hl0]
    exact List.mem_cons_of_mem _ (List.mem_append_right _ (List.mem_singleton.mpr rfl))
  have hbound : ∀ y ∈ List.insertionSort (· ≤ ·) l0, y ≤ totalBytes text := by
    intro y hy
    rw [hperm.mem_iff, hl0] at hy
    rcases List.mem_cons.mp hy with rfl | hy2
    · exact Nat.zero_le _
    · rcases List.mem_append.mp hy2 with hy3 | hy4
      · rcases List.mem_flatMap.mp hy3 with ⟨p, hp, hyp⟩
        have hple := mem_buildMap_le text highlights p hp
        rcases List.mem_cons.mp hyp with rfl | hyp2
        · omega
        · rcases List.mem_singleton.mp hyp2 with rfl
          exact hple
      · rcases List.mem_singleton.mp hy4 with rfl
        exact Nat.le_refl _
  refine ⟨hsorted, ?_, ?_, ?_, ?_⟩
  · rw [hperm.length_eq, hl0, List.length_cons, List.length_append]
    simp only [List.length_cons, List.length_nil]
    omega
  · rw [hperm.length_eq, hl0, List.length_cons, List.length_append,
      flatMap_pairs_length]
    simp only [List.length_cons, List.length_nil]
    omega
  · exact sorted_head?_eq hsorted hmem0 (fun y _ => Nat.zero_le y)
  · exact sorted_getLast?_eq _ _ hsorted hmemT hbound

/-- Claim C9: for every text and every highlight slice whatsoever, the
boundary list is sorted non-decreasing, has even length at least 2, starts
with `0` and ends with the byte length of the text. -/
theorem c9_boundary_invariants (text : List Char) (highlights : List Highlight) :
    List.Sorted (· ≤ ·) (create_highlight_areas text highlights) ∧
    2 ≤ (create_highlight_areas text highlights).length ∧
    (create_highlight_areas text highlights).length % 2 = 0 ∧
    (create_highlight_areas text highlights).head? = some 0 ∧
    (create_highlight_areas text highlights).getLast? = some (totalBytes text) :=
  areas_invariants text highlights

/-- Claim C3, counterexample: the well-formed single highlight covering
all of `"ab"` produces the boundary list `[0, 0, 2, 2]`, which is not
strictly increasing. -/
theorem c3_counterexample :
    (SortedHighlights [⟨0, 0, 2⟩] ∧ 0 + 2 ≤ ("ab".data).length) ∧
    create_highlight_areas "ab".data [⟨0, 0, 2⟩] = [0, 0, 2, 2] ∧
    ¬ List.Sorted (· < ·) (create_highlight_areas "ab".data [⟨0, 0, 2⟩]) := by
  refine ⟨⟨by decide, by decide⟩, by decide, by decide⟩

/-- Claim C3 as amended: for every text and well-formed highlight set
(sorted, in character range), the boundary list starts at `0`, ends at the
byte length of the text, is sorted non-decreasing (not strictly
increasing: boundaries may repeat) and has even length. -/
theorem c3_amended_boundary_validity (text : List Char) (highlights : List Highlight)
    (hsorted : SortedHighlights highlights)
    (hrange : ∀ h ∈ highlights, h.char_index + h.char_length ≤ text.length) :
    (create_highlight_areas text highlights).head? = some 0 ∧
    (create_highlight_areas text highlights).getLast? = some (totalBytes text) ∧
    List.Sorted (· ≤ ·) (create_highlight_areas text highlights) ∧
    (create_highlight_areas text highlights).length % 2 = 0 := by
  have h := areas_invariants text highlights
  exact ⟨h.2.2.2.1, h.2.2.2.2, h.1, h.2.2.1⟩

/-- Claim C3 witness: the amended statement at `"hello world"` with the
single in-range highlight over `"world"`. -/
theorem c3_amended_boundary_validity_witness :
    (SortedHighlights [⟨0, 6, 5⟩] ∧
     ∀ h ∈ ([⟨0, 6, 5⟩] : List Highlight),
       h.char_index + h.char_length ≤ ("hello world".data).length) ∧
    ((create_highlight_areas "hello world".data [⟨0, 6, 5⟩]).head? = some 0 ∧
     (create_highlight_areas "hello world".data [⟨0, 6, 5⟩]).getLast? =
       some (totalBytes "hello world".data) ∧
     List.Sorted (· ≤ ·) (create_highlight_areas "hello world".data [⟨0, 6, 5⟩]) ∧
     (create_highlight_areas "hello world".data [⟨0, 6, 5⟩]).length % 2 = 0) :=
  ⟨⟨by decide, by decide⟩,
   c3_amended_boundary_validity "hello world".data [⟨0, 6, 5⟩] (by decide) (by decide)⟩

/-! Claim C5: the `BTreeMap` fold keeps the maximum byte length per
distinct byte start offset, and each distinct start is emitted as its own
boundary pair. -/

theorem omax_none_right (a : Option Nat) : omax a none = a := by
  cases a <;> rfl

theorem omax_assoc (a b c : Option Nat) : omax (omax a b) c = omax a (omax b c) := by
  cases a <;> cases b <;> cases c <;> simp [omax, Nat.max_assoc]

theorem omax_some_left_ne_none (a : Nat) (b : Option Nat) : omax (some a) b ≠ none := by
  cases b <;> simp [omax]

theorem maxLenAt_nil (k : Nat) : maxLenAt [] k = none := rfl

theorem maxLenAt_cons (r : Nat × Nat) (rs : List (Nat × Nat)) (k : Nat) :
    maxLenAt (r :: rs) k =
      if r.1 = k then omax (some r.2) (maxLenAt rs k) else maxLenAt rs k := rfl

theorem lookupKey_eq_none_of_forall :
    ∀ {m : List (Nat × Nat)} {k : Nat}, (∀ p ∈ m, p.1 ≠ k) → lookupKey m k = none
  | [], _, _ => rfl
  | (k2, v) :: t, k, h => by
    unfold lookupKey
    rw [if_neg fun hk => h (k2, v) (List.mem_cons_self _ _) hk.symm]
    exact lookupKey_eq_none_of_forall fun p hp => h p (List.mem_cons_of_mem _ hp)

theorem exists_of_lookupKey_eq_some :
    ∀ {m : List (Nat × Nat)} {k : Nat} {v : Nat},
      lookupKey m k = some v → ∃ p ∈ m, p.1 = k
  | [], _, _, h => by cases h
  | (k2, v2) :: t, k, v, h => by
    unfold lookupKey at h
    by_cases hk : k = k2
    · exact ⟨(k2, v2), List.mem_cons_self _ _, hk.symm⟩
    · rw [if_neg hk] at h
      rcases exists_of_lookupKey_eq_some h with ⟨p, hp, hpk⟩
      exact ⟨p, List.mem_cons_of_mem _ hp, hpk⟩

theorem lookupKey_insertMax (k v : Nat) :
    ∀ (m : List (Nat × Nat)), SortedKeys m → ∀ k2,
      lookupKey (btreeInsertMax k v m) k2 =
        if k2 = k then omax (lookupKey m k2) (some v) else lookupKey m k2
  | [], _, k2 => by
    unfold btreeInsertMax lookupKey
    by_cases hk : k2 = k
    · rw [if_pos hk, if_pos hk]
      rfl
    · rw [if_neg hk, if_neg hk]
      rfl
  | (km, vm) :: t, hsort, k2 => by
    have htail : SortedKeys t := (List.pairwise_cons.mp hsort).2
    have hhead : ∀ p ∈ t, km < p.1 := (List.pairwise_cons.mp hsort).1
    unfold btreeInsertMax
    by_cases h1 : k < km
    · rw [if_pos h1]
      have hnone : lookupKey ((km, vm) :: t) k = none := by
        apply lookupKey_eq_none_of_forall
        intro p hp
        rcases List.mem_cons.mp hp with rfl | hp2
        · omega
        · have := hhead p hp2
          omega
      by_cases hk : k2 = k
      · subst hk
        show (if k2 = k2 then some v else lookupKey ((km, vm) :: t) k2) = _
        rw [if_pos rfl, if_pos rfl, hnone]
        rfl
      · show (if k2 = k then some v else lookupKey ((km, vm) :: t) k2) = _
        rw [if_neg hk, if_neg hk]
    · rw [if_neg h1]
      by_cases h2 : k = km
      · rw [if_pos h2]
        subst h2
        by_cases hk : k2 = k
        · subst hk
          show (if k2 = k2 then some (if vm < v then v else vm) else lookupKey t k2) = _
          rw [if_pos rfl, if_pos rfl]
          show _ = omax (if k2 = k2 then some vm else lookupKey t k2) (some v)
          rw [if_pos rfl]
          show some (if vm < v then v else vm) = some (max vm v)
          congr 1
          split <;> omega
        · show (if k2 = k then some (if vm < v then v else vm) else lookupKey t k2) = _
          rw [if_neg hk, if_neg hk]
          show _ = (if k2 = k then some vm else lookupKey t k2)
          rw [if_neg hk]
      · rw [if_neg h2]
        have hkm : ¬ k2 = km → lookupKey ((km, vm) :: t) k2 = lookupKey t k2 := by
          intro hne
          show (if k2 = km then some vm else lookupKey t k2) = _
          rw [if_neg hne]
        by_cases h3 : k2 = km
        · subst h3
          have hne : ¬ k2 = k := fun hk => h2 (hk ▸ rfl)
          show (if k2 = k2 then some vm else lookupKey (btreeInsertMax k v t) k2) = _
          rw [if_pos rfl, if_neg hne]
          show _ = (if k2 = k2 then some vm else lookupKey t k2)
          rw [if_pos rfl]
        · show (if k2 = km then some vm else lookupKey (btreeInsertMax k v t) k2) = _
          rw [if_neg h3, lookupKey_insertMax k v t htail k2]
          by_cases hk : k2 = k
          · rw [if_pos hk, if_pos hk, hkm h3]
          · rw [if_neg hk, if_neg hk, hkm h3]

theorem mem_btreeInsertMax_key :
    ∀ (m : List (Nat × Nat)) (k v : Nat) (p : Nat × Nat), p ∈ btreeInsertMax k v m →
      p.1 = k ∨ ∃ q ∈ m, p.1 = q.1
  | [], k, v, p, hp => by
    unfold btreeInsertMax at hp
    rcases List.mem_singleton.mp hp with rfl
    exact Or.inl rfl
  | (km, vm) :: t, k, v, p, hp => by
    unfold btreeInsertMax at hp
    by_cases h1 : k < km
    · rw [if_pos h1] at hp
      rcases List.mem_cons.mp hp with rfl | hp2
      · exact Or.inl rfl
      · exact Or.inr ⟨p, hp2, rfl⟩
    · rw [if_neg h1] at hp
      by_cases h2 : k = km
      · rw [if_pos h2] at hp
        rcases List.mem_cons.mp hp with rfl | hp2
        · exact Or.inr ⟨(km, vm), List.mem_cons_self _ _, rfl⟩
        · exact Or.inr ⟨p, List.mem_cons_of_mem _ hp2, rfl⟩
      · rw [if_neg h2] at hp
        rcases List.mem_cons.mp hp with rfl | hp2
        · exact Or.inr ⟨(km, vm), List.mem_cons_self _ _, rfl⟩
        · rcases mem_btreeInsertMax_key t k v p hp2 with hk | ⟨q, hq, hqk⟩
          · exact Or.inl hk
          · exact Or.inr ⟨q, List.mem_cons_of_mem _ hq, hqk⟩

theorem sortedKeys_btreeInsertMax :
    ∀ (m : List (Nat × Nat)) (k v : Nat), SortedKeys m → SortedKeys (btreeInsertMax k v m)
  | [], k, v, _ => List.pairwise_singleton _ _
  | (km, vm) :: t, k, v, hsort => by
    have htail : SortedKeys t := (List.pairwise_cons.mp hsort).2
    have hhead : ∀ p ∈ t, km < p.1 := (List.pairwise_cons.mp hsort).1
    unfold btreeInsertMax
    by_cases h1 : k < km
    · rw [if_pos h1]
      apply List.pairwise_cons.mpr
      refine ⟨?_, hsort⟩
      intro q hq
      rcases List.mem_cons.mp hq with rfl | hq2
      · exact h1
      · have := hhead q hq2
        omega
    · rw [if_neg h1]
      by_cases h2 : k = km
      · rw [if_pos h2]
        exact List.pairwise_cons.mpr ⟨hhead, htail⟩
      · rw [if_neg h2]
        apply List.pairwise_cons.mpr
        refine ⟨?_, sortedKeys_btreeInsertMax t k v htail⟩
        intro q hq
        rcases mem_btreeInsertMax_key t k v q hq with hk | ⟨p, hp, hpk⟩
        · omega
        · have := hhead p hp
          omega

theorem sortedKeys_foldl_insert :
    ∀ (rs : List (Nat × Nat)) (m0 : List (Nat × Nat)), SortedKeys m0 →
      SortedKeys (rs.foldl (fun m r => btreeInsertMax r.1 r.2 m) m0)
  | [], m0, hm => by
    rw [List.foldl_nil]
    exact hm
  | r :: rs, m0, hm => by
    rw [List.foldl_cons]
    exact sortedKeys_foldl_insert rs _ (sortedKeys_btreeInsertMax m0 r.1 r.2 hm)

theorem lookupKey_foldl_insert (k : Nat) :
    ∀ (rs : List (Nat × Nat)) (m0 : List (Nat × Nat)), SortedKeys m0 →
      lookupKey (rs.foldl (fun m r => btreeInsertMax r.1 r.2 m) m0) k =
        omax (lookupKey m0 k) (maxLenAt rs k)
  | [], m0, _ => by
    rw [List.foldl_nil, maxLenAt_nil, omax_none_right]
  | r :: rs, m0, hm => by
    rw [List.foldl_cons,
      lookupKey_foldl_insert k rs _ (sortedKeys_btreeInsertMax m0 r.1 r.2 hm),
      lookupKey_insertMax r.1 r.2 m0 hm k, maxLenAt_cons]
    by_cases hk : r.1 = k
    · rw [if_pos hk, if_pos hk.symm, omax_assoc]
    · rw [if_neg hk, if_neg fun h => hk h.symm]

theorem lookupKey_buildMap (rs : List (Nat × Nat)) (k : Nat) :
    lookupKey (buildMap rs) k = maxLenAt rs k := by
  unfold buildMap
  rw [lookupKey_foldl_insert k rs [] List.Pairwise.nil]
  rfl

theorem sortedKeys_buildMap (rs : List (Nat × Nat)) : SortedKeys (buildMap rs) :=
  sortedKeys_foldl_insert rs [] List.Pairwise.nil

theorem mem_insOrd (k : Nat) :
    ∀ (l : List Nat) (a : Nat), a ∈ insOrd k l ↔ a = k ∨ a ∈ l
  | [], a => by simp [insOrd]
  | a0 :: t, a => by
    unfold insOrd
    by_cases h1 : k < a0
    · rw [if_pos h1]
      simp [List.mem_cons]
    · rw [if_neg h1]
      by_cases h2 : k = a0
      · rw [if_pos h2]
        subst h2
        simp [List.mem_cons]
      · rw [if_neg h2]
        simp only [List.mem_cons, mem_insOrd k t a]
        tauto

theorem sorted_insOrd (k : Nat) :
    ∀ (l : List Nat), List.Pairwise (· < ·) l → List.Pairwise (· < ·) (insOrd k l)
  | [], _ => List.pairwise_singleton _ _
  | a0 :: t, hsort => by
    have htail : List.Pairwise (· < ·) t := (List.pairwise_cons.mp hsort).2
    have hhead : ∀ b ∈ t, a0 < b := (List.pairwise_cons.mp hsort).1
    unfold insOrd
    by_cases h1 : k < a0
    · rw [if_pos h1]
      apply List.pairwise_cons.mpr
      refine ⟨?_, hsort⟩
      intro b hb
      rcases List.mem_cons.mp hb with rfl | hb2
      · exact h1
      · have := hhead b hb2
        omega
    · rw [if_neg h1]
      by_cases h2 : k = a0
      · rw [if_pos h2]
        exact hsort
      · rw [if_neg h2]
        apply List.pairwise_cons.mpr
        refine ⟨?_, sorted_insOrd k t htail⟩
        intro b hb
        rcases (mem_insOrd k t b).mp hb with rfl | hb2
        · omega
        · exact hhead b hb2

theorem sorted_foldl_insOrd :
    ∀ (rs : List (Nat × Nat)) (acc : List Nat), List.Pairwise (· < ·) acc →
      List.Pairwise (· < ·) (rs.foldl (fun acc r => insOrd r.1 acc) acc)
  | [], acc, h => by
    rw [List.foldl_nil]
    exact h
  | r :: rs, acc, h => by
    rw [List.foldl_cons]
    exact sorted_foldl_insOrd rs _ (sorted_insOrd r.1 acc h)

theorem mem_foldl_insOrd :
    ∀ (rs : List (Nat × Nat)) (acc : List Nat) (a : Nat),
      a ∈ rs.foldl (fun acc r => insOrd r.1 acc) acc ↔ a ∈ acc ∨ ∃ r ∈ rs, a = r.1
  | [], acc, a => by simp
  | r :: rs, acc, a => by
    rw [List.foldl_cons, mem_foldl_insOrd rs _ a, mem_insOrd r.1 acc a]
    simp only [List.mem_cons]
    constructor
    · rintro ((hk | ha) | ⟨r2, hr2, ha2⟩)
      · exact Or.inr ⟨r, Or.inl rfl, hk⟩
      · exact Or.inl ha
      · exact Or.inr ⟨r2, Or.inr hr2, ha2⟩
    · rintro (ha | ⟨r2, hr2 | hr2, ha2⟩)
      · exact Or.inl (Or.inr ha)
      · subst hr2
        exact Or.inl (Or.inl ha2)
      · exact Or.inr ⟨r2, hr2, ha2⟩

theorem sorted_sortedStarts (rs : List (Nat × Nat)) :
    List.Pairwise (· < ·) (sortedStarts rs) :=
  sorted_foldl_insOrd rs [] List.Pairwise.nil

theorem mem_sortedStarts (rs : List (Nat × Nat)) (a : Nat) :
    a ∈ sortedStarts rs ↔ ∃ r ∈ rs, a = r.1 := by
  unfold sortedStarts
  rw [mem_foldl_insOrd rs [] a]
  simp

theorem maxLenAt_eq_none_iff (k : Nat) :
    ∀ (rs : List (Nat × Nat)), maxLenAt rs k = none ↔ ∀ r ∈ rs, r.1 ≠ k
  | [] => by simp [maxLenAt_nil]
  | r :: rs => by
    rw [maxLenAt_cons]
    by_cases hk : r.1 = k
    · rw [if_pos hk]
      constructor
      · intro h
        exact absurd h (omax_some_left_ne_none _ _)
      · intro h
        exact absurd hk (h r (List.mem_cons_self _ _))
    · rw [if_neg hk]
      rw [maxLenAt_eq_none_iff k rs]
      constructor
      · intro h r2 hr2
        rcases List.mem_cons.mp hr2 with rfl | hr3
        · exact hk
        · exact h r2 hr3
      · intro h r2 hr2
        exact h r2 (List.mem_cons_of_mem _ hr2)

theorem lookupKey_map_self (g : Nat → Nat) :
    ∀ (l : List Nat) (k : Nat),
      lookupKey (l.map fun a => (a, g a)) k = if k ∈ l then some (g k) else none
  | [], k => by simp [lookupKey]
  | a :: t, k => by
    show (if k = a then some (g a) else lookupKey (t.map fun a => (a, g a)) k) = _
    by_cases hk : k = a
    · subst hk
      rw [if_pos rfl, if_pos (List.mem_cons_self _ _)]
    · rw [if_neg hk, lookupKey_map_self g t k]
      by_cases hm : k ∈ t
      · rw [if_pos hm, if_pos (List.mem_cons_of_mem _ hm)]
      · rw [if_neg hm, if_neg fun h => by
          rcases List.mem_cons.mp h with h2 | h2
          · exact hk h2
          · exact hm h2]

theorem sortedKeys_specMap (rs : List (Nat × Nat)) : SortedKeys (specMap rs) := by
  unfold specMap SortedKeys
  rw [List.pairwise_map]
  exact sorted_sortedStarts rs

theorem lookupKey_specMap (rs : List (Nat × Nat)) (k : Nat) :
    lookupKey (specMap rs) k = maxLenAt rs k := by
  unfold specMap
  rw [lookupKey_map_self]
  by_cases hk : k ∈ sortedStarts rs
  · rw [if_pos hk]
    have hne : maxLenAt rs k ≠ none := by
      intro hnone
      rw [maxLenAt_eq_none_iff k rs] at hnone
      rcases (mem_sortedStarts rs k).mp hk with ⟨r, hr, hrk⟩
      exact hnone r hr hrk.symm
    cases hmax : maxLenAt rs k with
    | none => exact absurd hmax hne
    | some v => rfl
  · rw [if_neg hk]
    symm
    rw [maxLenAt_eq_none_iff]
    intro r hr hrk
    exact hk ((mem_sortedStarts rs k).mpr ⟨r, hr, hrk.symm⟩)

theorem sortedKeys_ext :
    ∀ (m1 m2 : List (Nat × Nat)), SortedKeys m1 → SortedKeys m2 →
      (∀ k, lookupKey m1 k = lookupKey m2 k) → m1 = m2
  | [], [], _, _, _ => rfl
  | [], (k2, v2) :: t2, _, _, hlook => by
    exfalso
    have h := hlook k2
    rw [show lookupKey [] k2 = none from rfl] at h
    have h2 : lookupKey ((k2, v2) :: t2) k2 = some v2 := by
      show (if k2 = k2 then some v2 else lookupKey t2 k2) = some v2
      rw [if_pos rfl]
    rw [h2] at h
    cases h
  | (k1, v1) :: t1, [], _, _, hlook => by
    exfalso
    have h := hlook k1
    have h1 : lookupKey ((k1, v1) :: t1) k1 = some v1 := by
      show (if k1 = k1 then some v1 else lookupKey t1 k1) = some v1
      rw [if_pos rfl]
    rw [h1, show lookupKey [] k1 = none from rfl] at h
    cases h
  | (k1, v1) :: t1, (k2, v2) :: t2, hs1, hs2, hlook => by
    have hh1 : ∀ p ∈ t1, k1 < p.1 := (List.pairwise_cons.mp hs1).1
    have hh2 : ∀ p ∈ t2, k2 < p.1 := (List.pairwise_cons.mp hs2).1
    have hl1 : lookupKey ((k1, v1) :: t1) k1 = some v1 := by
      show (if k1 = k1 then some v1 else lookupKey t1 k1) = some v1
      rw [if_pos rfl]
    have hl2 : lookupKey ((k2, v2) :: t2) k2 = some v2 := by
      show (if k2 = k2 then some v2 else lookupKey t2 k2) = some v2
      rw [if_pos rfl]
    have hk12 : k1 = k2 := by
      have ha := hlook k1
      rw [hl1] at ha
      rcases exists_of_lookupKey_eq_some ha.symm with ⟨p, hp, hpk⟩
      have hb := hlook k2
      rw [hl2] at hb
      rcases exists_of_lookupKey_eq_some hb with ⟨q, hq, hqk⟩
      rcases List.mem_cons.mp hp with rfl | hp2
      · exact hpk.symm
      · rcases List.mem_cons.mp hq with rfl | hq2
        · exact hqk
        · have := hh2 p hp2
          have := hh1 q hq2
          omega
    subst hk12
    have hv12 : v1 = v2 := by
      have ha := hlook k1
      rw [hl1, hl2] at ha
      exact Option.some.inj ha
    subst hv12
    have htails : ∀ k, lookupKey t1 k = lookupKey t2 k := by
      intro k
      by_cases hk : k = k1
      · subst hk
        rw [lookupKey_eq_none_of_forall fun p hp => by
            have := hh1 p hp
            omega,
          lookupKey_eq_none_of_forall fun p hp => by
            have := hh2 p hp
            omega]
      · have h := hlook k
        rw [show lookupKey ((k1, v1) :: t1) k = if k = k1 then some v1 else lookupKey t1 k
            from rfl,
          show lookupKey ((k1, v1) :: t2) k = if k = k1 then some v1 else lookupKey t2 k
            from rfl, if_neg hk, if_neg hk] at h
        exact h
    rw [sortedKeys_ext t1 t2 (List.pairwise_cons.mp hs1).2 (List.pairwise_cons.mp hs2).2 htails]

theorem buildMap_eq_specMap (rs : List (Nat × Nat)) : buildMap rs = specMap rs := by
  apply sortedKeys_ext _ _ (sortedKeys_buildMap rs) (sortedKeys_specMap rs)
  intro k
  rw [lookupKey_buildMap, lookupKey_specMap]

/-- Claim C5: for every text and highlight set, the boundary list equals
the spec-side construction that keeps, for each distinct byte start
offset, only the maximum byte length seen for that start, and emits each
distinct start as its own boundary pair (never merging overlapping ranges
with different starts). -/
theorem c5_max_per_start (text : List Char) (highlights : List Highlight) :
    create_highlight_areas text highlights = areasSpec text highlights := by
  rw [create_highlight_areas_form]
  unfold areasSpec
  rw [buildMap_eq_specMap]

end MeiliHighlight
